import Mathlib

set_option autoImplicit false

namespace RegexpUtil

/-- Model of the JavaScript values that flow through the helpers of this
library: strings, numbers (the match offset), `undefined` (the value of a
non-participating capture) and plain objects holding named captures, given
by their own enumerable properties in insertion order. -/
inductive JSVal where
  | str : String → JSVal
  | num : Nat → JSVal
  | undef : JSVal
  | obj : List (String × JSVal) → JSVal

/-- The single error class the library throws: both `named` and `groups`
throw `RangeError`s. -/
inductive JSError where
  | rangeError : String → JSError
  deriving DecidableEq

/-- Own property names of the ordinary object prototype, visible to the
JavaScript `in` operator on any object whose prototype chain was not cut
off with `Object.create(null)`. -/
def objectProtoKeys : List String :=
  ["constructor", "hasOwnProperty", "isPrototypeOf", "propertyIsEnumerable",
   "toLocaleString", "toString", "valueOf"]

/-- A JavaScript object as observed by this library: its own properties in
insertion order, plus whether it inherits from the ordinary object
prototype (`Object.create(null)` yields one that does not). -/
structure JSObj where
  hasObjectProto : Bool
  props : List (String × JSVal)

/-- Whether `k` is an own property of the object. -/
def hasOwn (o : JSObj) (k : String) : Bool :=
  o.props.any (fun p => p.1 == k)

/-- The JavaScript `in` operator: own properties plus the prototype chain. -/
def keyIn (o : JSObj) (k : String) : Bool :=
  hasOwn o k || (o.hasObjectProto && objectProtoKeys.contains k)

/-- Reading an own property (`o[k]`), `none` when absent. -/
def objGet (o : JSObj) (k : String) : Option JSVal :=
  (o.props.find? (fun p => p.1 == k)).map Prod.snd

/-- Writing a key into a property list: overwrites the first entry with that
key in place, otherwise appends, as JavaScript property order dictates. -/
def setProps : List (String × JSVal) → String → JSVal → List (String × JSVal)
  | [], k, v => [(k, v)]
  | p :: rest, k, v => if p.1 == k then (k, v) :: rest else p :: setProps rest k v

/-- Writing a property (`o[k] = v` / `Object.defineProperty`). -/
def objSet (o : JSObj) (k : String) (v : JSVal) : JSObj :=
  ⟨o.hasObjectProto, setProps o.props k v⟩

/-- `Object.assign(o, m)` for a source object with entry list `m`: write each
own enumerable property of the source onto `o`, in order. -/
def objAssign (o : JSObj) (m : List (String × JSVal)) : JSObj :=
  m.foldl (fun a p => objSet a p.1 p.2) o

/-- `Object.assign` with an arbitrary value as source: primitives contribute
no own enumerable properties, so only the `obj` case copies anything. -/
def assignVal (o : JSObj) (v : JSVal) : JSObj :=
  match v with
  | .obj m => objAssign o m
  | _ => o

/-- The character of a decimal digit. -/
def digitChar : Nat → Char
  | 0 => '0'
  | 1 => '1'
  | 2 => '2'
  | 3 => '3'
  | 4 => '4'
  | 5 => '5'
  | 6 => '6'
  | 7 => '7'
  | 8 => '8'
  | _ => '9'

/-- The value of a decimal digit character. -/
def digitVal (c : Char) : Nat :=
  if c = '0' then 0 else if c = '1' then 1 else if c = '2' then 2
  else if c = '3' then 3 else if c = '4' then 4 else if c = '5' then 5
  else if c = '6' then 6 else if c = '7' then 7 else if c = '8' then 8 else 9

/-- Little-endian decimal digits of `n`, with explicit fuel so that the
definition is structural and kernel-computable. -/
def natDigits : Nat → Nat → List Nat
  | 0, _ => []
  | fuel + 1, n => if n < 10 then [n] else n % 10 :: natDigits fuel (n / 10)

/-- Value of a little-endian digit list. -/
def digitsToNat : List Nat → Nat
  | [] => 0
  | d :: ds => d + 10 * digitsToNat ds

/-- The decimal string form of a non-negative integer, exactly the string
JavaScript produces when a number is used as a property key. -/
def natKey (n : Nat) : String :=
  ⟨(natDigits (n + 1) n).reverse.map digitChar⟩

theorem natDigits_fuel_irrel (n : Nat) : ∀ f : Nat, n < f →
    natDigits f n = natDigits (n + 1) n := by
  induction n using Nat.strong_induction_on with
  | _ n ih =>
    intro f hf
    cases f with
    | zero => omega
    | succ g =>
      by_cases h : n < 10
      · simp [natDigits, h]
      · have hd : n / 10 < n := Nat.div_lt_self (by omega) (by omega)
        simp only [natDigits, if_neg h]
        rw [ih (n / 10) hd g (by omega), ih (n / 10) hd n (by omega)]

theorem digitsToNat_natDigits : ∀ fuel n : Nat, n < fuel →
    digitsToNat (natDigits fuel n) = n := by
  intro fuel
  induction fuel with
  | zero => intro n h; omega
  | succ f ih =>
    intro n h
    by_cases h10 : n < 10
    · simp [natDigits, h10, digitsToNat]
    · have hd : n / 10 < n := Nat.div_lt_self (by omega) (by omega)
      simp only [natDigits, if_neg h10, digitsToNat]
      rw [ih (n / 10) (by omega)]
      omega

theorem natDigits_lt : ∀ fuel n : Nat, ∀ d ∈ natDigits fuel n, d < 10 := by
  intro fuel
  induction fuel with
  | zero => intro n d hd; simp [natDigits] at hd
  | succ f ih =>
    intro n d hd
    by_cases h10 : n < 10
    · simp [natDigits, h10] at hd; omega
    · simp only [natDigits, if_neg h10, List.mem_cons] at hd
      rcases hd with h | h
      · omega
      · exact ih _ _ h

theorem digitVal_digitChar {d : Nat} (h : d < 10) :
    digitVal (digitChar d) = d := by
  interval_cases d <;> rfl

theorem natKey_injective : Function.Injective natKey := by
  intro a b h
  have hdata : (natDigits (a + 1) a).reverse.map digitChar
      = (natDigits (b + 1) b).reverse.map digitChar := congrArg String.data h
  have hmap : ∀ n : Nat,
      ((natDigits (n + 1) n).reverse.map digitChar).map digitVal
        = (natDigits (n + 1) n).reverse := by
    intro n
    rw [List.map_map]
    have : ∀ d ∈ (natDigits (n + 1) n).reverse, (digitVal ∘ digitChar) d = d := by
      intro d hd
      exact digitVal_digitChar (natDigits_lt _ _ d (List.mem_reverse.mp hd))
    rw [List.map_congr_left this]
    simp
  have hrev : (natDigits (a + 1) a).reverse = (natDigits (b + 1) b).reverse := by
    rw [← hmap a, ← hmap b, hdata]
  have hdig : natDigits (a + 1) a = natDigits (b + 1) b :=
    List.reverse_injective hrev
  have := digitsToNat_natDigits (a + 1) a (by omega)
  rw [hdig, digitsToNat_natDigits (b + 1) b (by omega)] at this
  omega

theorem natKey_inj_iff {a b : Nat} : natKey a = natKey b ↔ a = b :=
  ⟨fun h => natKey_injective h, fun h => h ▸ rfl⟩

theorem find?_setProps_self (l : List (String × JSVal)) (k : String) (v : JSVal) :
    (setProps l k v).find? (fun p => p.1 == k) = some (k, v) := by
  induction l with
  | nil => simp [setProps]
  | cons e rest ih =>
    by_cases h : e.1 = k
    · have hb : (e.1 == k) = true := by simpa using h
      simp only [setProps]
      rw [if_pos hb]
      exact List.find?_cons_of_pos _ (by simp)
    · have hb : ¬((e.1 == k) = true) := by simp [h]
      simp only [setProps]
      rw [if_neg hb, List.find?_cons_of_neg _ (by simpa using h)]
      exact ih

theorem find?_setProps_ne (l : List (String × JSVal)) (k k' : String) (v : JSVal)
    (h : k' ≠ k) :
    (setProps l k v).find? (fun p => p.1 == k') = l.find? (fun p => p.1 == k') := by
  induction l with
  | nil =>
    simp only [setProps]
    rw [List.find?_cons_of_neg _ (by simpa using Ne.symm h)]
  | cons e rest ih =>
    by_cases hp : e.1 = k
    · have hb : (e.1 == k) = true := by simpa using hp
      simp only [setProps]
      rw [if_pos hb]
      rw [List.find?_cons_of_neg _ (by simpa using Ne.symm h),
          List.find?_cons_of_neg _ (by simp [hp]; exact Ne.symm h)]
    · have hb : ¬((e.1 == k) = true) := by simp [hp]
      simp only [setProps]
      rw [if_neg hb]
      by_cases hp' : e.1 = k'
      · rw [List.find?_cons_of_pos _ (by simpa using hp'),
            List.find?_cons_of_pos _ (by simpa using hp')]
      · rw [List.find?_cons_of_neg _ (by simpa using hp'),
            List.find?_cons_of_neg _ (by simpa using hp')]
        exact ih

theorem mem_keys_setProps (l : List (String × JSVal)) (k k' : String) (v : JSVal) :
    (∃ p ∈ setProps l k v, p.1 = k') ↔ (k' = k ∨ ∃ p ∈ l, p.1 = k') := by
  induction l with
  | nil => simp [setProps, eq_comm]
  | cons e rest ih =>
    by_cases hp : e.1 = k
    · have hb : (e.1 == k) = true := by simpa using hp
      simp only [setProps]
      rw [if_pos hb]
      constructor
      · rintro ⟨p, hpm, hpk⟩
        rcases List.mem_cons.mp hpm with rfl | hpm
        · exact Or.inl hpk.symm
        · exact Or.inr ⟨p, List.mem_cons_of_mem e hpm, hpk⟩
      · rintro (hkk | ⟨p, hpm, hpk⟩)
        · exact ⟨(k, v), List.mem_cons_self _ _, hkk.symm⟩
        · rcases List.mem_cons.mp hpm with rfl | hpm
          · exact ⟨(k, v), List.mem_cons_self _ _, by rw [← hpk, hp]⟩
          · exact ⟨p, List.mem_cons_of_mem _ hpm, hpk⟩
    · have hb : ¬((e.1 == k) = true) := by simp [hp]
      simp only [setProps]
      rw [if_neg hb]
      constructor
      · rintro ⟨p, hpm, hpk⟩
        rcases List.mem_cons.mp hpm with rfl | hpm
        · exact Or.inr ⟨p, List.mem_cons_self _ _, hpk⟩
        · rcases ih.mp ⟨p, hpm, hpk⟩ with hkk | ⟨q, hq, hqk⟩
          · exact Or.inl hkk
          · exact Or.inr ⟨q, List.mem_cons_of_mem _ hq, hqk⟩
      · rintro (hkk | ⟨p, hpm, hpk⟩)
        · obtain ⟨q, hq, hqk⟩ := ih.mpr (Or.inl hkk)
          exact ⟨q, List.mem_cons_of_mem _ hq, hqk⟩
        · rcases List.mem_cons.mp hpm with rfl | hpm
          · exact ⟨p, List.mem_cons_self _ _, hpk⟩
          · obtain ⟨q, hq, hqk⟩ := ih.mpr (Or.inr ⟨p, hpm, hpk⟩)
            exact ⟨q, List.mem_cons_of_mem _ hq, hqk⟩

theorem setProps_of_absent (l : List (String × JSVal)) (k : String) (v : JSVal)
    (h : ∀ p ∈ l, p.1 ≠ k) : setProps l k v = l ++ [(k, v)] := by
  induction l with
  | nil => simp [setProps]
  | cons e rest ih =>
    have hb : ¬((e.1 == k) = true) := by simp [h e (List.mem_cons_self e rest)]
    simp only [setProps]
    rw [if_neg hb, ih (fun q hq => h q (List.mem_cons_of_mem e hq))]
    simp

theorem hasOwn_eq_true (o : JSObj) (k : String) :
    hasOwn o k = true ↔ ∃ p ∈ o.props, p.1 = k := by
  simp [hasOwn, List.any_eq_true]

theorem hasOwn_objSet (o : JSObj) (k k' : String) (v : JSVal) :
    hasOwn (objSet o k v) k' = true ↔ (k' = k ∨ hasOwn o k' = true) := by
  rw [hasOwn_eq_true, hasOwn_eq_true]
  exact mem_keys_setProps o.props k k' v

theorem proto_objSet (o : JSObj) (k : String) (v : JSVal) :
    (objSet o k v).hasObjectProto = o.hasObjectProto := rfl

theorem keyIn_eq_true (o : JSObj) (k : String) :
    keyIn o k = true ↔
      (hasOwn o k = true ∨ (o.hasObjectProto = true ∧ k ∈ objectProtoKeys)) := by
  simp [keyIn]

theorem keyIn_objSet (o : JSObj) (k k' : String) (v : JSVal) :
    keyIn (objSet o k v) k' = true ↔ (k' = k ∨ keyIn o k' = true) := by
  rw [keyIn_eq_true, keyIn_eq_true, hasOwn_objSet, proto_objSet]
  tauto

theorem objGet_objSet_self (o : JSObj) (k : String) (v : JSVal) :
    objGet (objSet o k v) k = some v := by
  simp [objGet, objSet, find?_setProps_self]

theorem objGet_objSet_ne (o : JSObj) (k k' : String) (v : JSVal) (h : k' ≠ k) :
    objGet (objSet o k v) k' = objGet o k' := by
  simp [objGet, objSet, find?_setProps_ne _ _ _ _ h]

theorem proto_objAssign (o : JSObj) (m : List (String × JSVal)) :
    (objAssign o m).hasObjectProto = o.hasObjectProto := by
  induction m generalizing o with
  | nil => rfl
  | cons p rest ih => exact (ih (objSet o p.1 p.2)).trans rfl

theorem hasOwn_objAssign (o : JSObj) (m : List (String × JSVal)) (k : String) :
    hasOwn (objAssign o m) k = true ↔
      (hasOwn o k = true ∨ ∃ p ∈ m, p.1 = k) := by
  induction m generalizing o with
  | nil => simp [objAssign]
  | cons p rest ih =>
    show hasOwn (objAssign (objSet o p.1 p.2) rest) k = true ↔ _
    rw [ih, hasOwn_objSet]
    simp only [List.mem_cons]
    constructor
    · rintro ((h | h) | ⟨q, hq, hqk⟩)
      · exact Or.inr ⟨p, Or.inl rfl, h.symm⟩
      · exact Or.inl h
      · exact Or.inr ⟨q, Or.inr hq, hqk⟩
    · rintro (h | ⟨q, hq | hq, hqk⟩)
      · exact Or.inl (Or.inr h)
      · exact Or.inl (Or.inl (by rw [← hqk, hq]))
      · exact Or.inr ⟨q, hq, hqk⟩

theorem objAssign_of_disjoint (m : List (String × JSVal)) :
    ∀ o : JSObj, (m.map Prod.fst).Nodup →
      (∀ p ∈ m, ∀ q ∈ o.props, q.1 ≠ p.1) →
      objAssign o m = ⟨o.hasObjectProto, o.props ++ m⟩ := by
  induction m with
  | nil => intro o _ _; simp [objAssign]
  | cons p rest ih =>
    intro o hnd hdis
    have hnd' : p.1 ∉ rest.map Prod.fst ∧ (rest.map Prod.fst).Nodup :=
      List.nodup_cons.mp (show (p.1 :: rest.map Prod.fst).Nodup from by
        rw [← List.map_cons]; exact hnd)
    show objAssign (objSet o p.1 p.2) rest = _
    have hset : objSet o p.1 p.2 = ⟨o.hasObjectProto, o.props ++ [(p.1, p.2)]⟩ := by
      unfold objSet
      rw [setProps_of_absent _ _ _ (fun q hq => hdis p (List.mem_cons_self p rest) q hq)]
    rw [hset, ih]
    · simp
    · exact hnd'.2
    · intro q hq r hr
      simp only [List.mem_append, List.mem_singleton] at hr
      rcases hr with hr | hr
      · exact hdis q (List.mem_cons_of_mem p hq) r hr
      · rw [hr]
        have hm := hnd'.1
        simp only [List.mem_map] at hm
        exact fun hc => hm ⟨q, hq, hc.symm⟩

theorem objAssign_empty (b : Bool) (m : List (String × JSVal))
    (h : (m.map Prod.fst).Nodup) : objAssign ⟨b, []⟩ m = ⟨b, m⟩ := by
  rw [objAssign_of_disjoint m ⟨b, []⟩ h (by intro p _ q hq; simp at hq)]
  simp

theorem find?_of_nodup (l : List (String × JSVal)) (k : String) (v : JSVal)
    (hnd : (l.map Prod.fst).Nodup) (hm : (k, v) ∈ l) :
    l.find? (fun p => p.1 == k) = some (k, v) := by
  induction l with
  | nil => simp at hm
  | cons p rest ih =>
    have hnd' : p.1 ∉ rest.map Prod.fst ∧ (rest.map Prod.fst).Nodup :=
      List.nodup_cons.mp (show (p.1 :: rest.map Prod.fst).Nodup from by
        rw [← List.map_cons]; exact hnd)
    rcases List.mem_cons.mp hm with h | h
    · rw [← h]
      exact List.find?_cons_of_pos _ (by simp)
    · have hpk : p.1 ≠ k := by
        intro hc
        have hm2 := hnd'.1
        simp only [List.mem_map] at hm2
        exact hm2 ⟨(k, v), h, by simp [hc]⟩
      rw [List.find?_cons_of_neg _ (by simpa using hpk)]
      exact ih hnd'.2 h

/-- The `forEach` loop of the named-captures branch of `named`
(src/index.ts lines 29 to 34): for each positional value, fail with a
`RangeError` when the numeric key is already present — the JavaScript
`index in captures` test — otherwise define the property. -/
def fillChecked (o : JSObj) (idx : Nat) : List JSVal → Except JSError JSObj
  | [] => .ok o
  | v :: rest =>
    if keyIn o (natKey idx) then
      .error (.rangeError ("Numeric name " ++ natKey idx ++ " used as a regexp capture name"))
    else fillChecked (objSet o (natKey idx) v) (idx + 1) rest

/-- The `forEach` loop of the no-named-captures branch of `named`
(src/index.ts lines 20 to 22): define each positional property, with no
collision test. -/
def fillUnchecked (o : JSObj) (idx : Nat) : List JSVal → JSObj
  | [] => o
  | v :: rest => fillUnchecked (objSet o (natKey idx) v) (idx + 1) rest

/-- Shallow embedding of `named` (src/index.ts lines 11 to 37). The wrapper
receives the argument list JavaScript passes to a `String.prototype.replace`
callback and either throws a `RangeError` or returns the replacer result.
`args.getLast?.getD undef` renders `args[length - 1]`, `args.take
(args.length - 2)` renders `args.slice(0, -2)`, and `args.getD i undef`
renders `args[i]`; the local `last` is the variable the source calls
`named`. -/
def named (replacer : JSObj → JSVal → JSVal → String) (args : List JSVal) :
    Except JSError String :=
  match (args.getLast?).getD JSVal.undef with
  | .str s =>
    .ok (replacer (fillUnchecked ⟨false, []⟩ 0 (args.take (args.length - 2)))
      (args.getD (args.length - 2) .undef) (.str s))
  | last =>
    match fillChecked (assignVal ⟨false, []⟩ last) 0 (args.take (args.length - 3)) with
    | .error e => .error e
    | .ok captures =>
      .ok (replacer captures (args.getD (args.length - 3) .undef)
        (args.getD (args.length - 2) .undef))

/-- Spec-side description of the adapter (spec section 4.1): the Capture
Object, match offset and original string that the wrapper hands to the
wrapped callback, or the collision error. The adapter must be exactly this
assembly followed by a single callback invocation whose string result is
returned unchanged. -/
def assembleCall (args : List JSVal) : Except JSError (JSObj × JSVal × JSVal) :=
  match (args.getLast?).getD JSVal.undef with
  | .str s =>
    .ok (fillUnchecked ⟨false, []⟩ 0 (args.take (args.length - 2)),
      args.getD (args.length - 2) .undef, .str s)
  | last =>
    match fillChecked (assignVal ⟨false, []⟩ last) 0 (args.take (args.length - 3)) with
    | .error e => .error e
    | .ok captures =>
      .ok (captures, args.getD (args.length - 3) .undef,
        args.getD (args.length - 2) .undef)

/-- The result of `RegExp.prototype.exec` or `String.prototype.match`: the
matched entries (index 0 the full match, then the positional captures,
absent for non-participating groups), the match offset, the input string,
and the named-capture object — `none` models the `undefined` `groups`
property of a pattern with no named groups at all. -/
structure MatchResult where
  entries : List (Option String)
  index : Nat
  input : String
  groups : Option (List (String × JSVal))

/-- Shallow embedding of `groups` (src/index.ts lines 76 to 88): the outer
`none` models the JavaScript `null` no-match sentinel, on both sides. -/
def groups (result : Option MatchResult) :
    Except JSError (Option (List (String × JSVal))) :=
  match result with
  | none => .ok none
  | some r =>
    match r.groups with
    | none =>
      .error (.rangeError "Attempted to read the named captures of a Regexp without named captures")
    | some g => .ok (some g)

/-- `RegExp.prototype.exec` against a fixed target of length `len`,
abstracting the native matching primitive as `find`, where `find pos` is
the first match of the pattern at or after `pos`, as a start and end
offset. A global regexp searches from `lastIndex` `li`, stores the match
end back into `lastIndex`, and resets it to `0` on failure; a non-global
regexp searches from `0` and leaves `lastIndex` untouched. Returns the
match and the new `lastIndex`. -/
def exec (g : Bool) (find : Nat → Option (Nat × Nat)) (len li : Nat) :
    Option (Nat × Nat) × Nat :=
  if g then
    if len < li then (none, 0)
    else
      match find li with
      | none => (none, 0)
      | some m => (some m, m.2)
  else (find 0, li)

/-- Shallow embedding of the generator `execAll` (src/index.ts lines 97 to
109), run to completion from `lastIndex` `li`: `some l` means the loop
terminated having yielded exactly the matches `l` in order, `none` that it
did not terminate within `fuel` iterations. -/
def execAll (g : Bool) (find : Nat → Option (Nat × Nat)) (len : Nat) :
    Nat → Nat → Option (List (Nat × Nat))
  | 0, _ => none
  | fuel + 1, li =>
    match exec g find len li with
    | (none, _) => some []
    | (some m, li2) =>
      if g then (execAll g find len fuel li2).map (fun l => m :: l) else some [m]

/-- Spec-side definition of the occurrences of a pattern in a target: the
left-to-right non-overlapping scan that repeatedly takes the first match at
or after the current position and resumes at its end. `none` when the scan
does not terminate within `fuel` steps, as happens with a pattern matching
the empty string. -/
def occList (find : Nat → Option (Nat × Nat)) : Nat → Nat → Option (List (Nat × Nat))
  | 0, _ => none
  | fuel + 1, pos =>
    match find pos with
    | none => some []
    | some m => (occList find fuel m.2).map (fun l => m :: l)

theorem bool_eq_false {b : Bool} (h : ¬(b = true)) : b = false := by
  cases b
  · rfl
  · exact absurd rfl h

theorem proto_fillUnchecked : ∀ (vs : List JSVal) (idx : Nat) (o : JSObj),
    (fillUnchecked o idx vs).hasObjectProto = o.hasObjectProto := by
  intro vs
  induction vs with
  | nil => intro idx o; rfl
  | cons v rest ih =>
    intro idx o
    exact (ih (idx + 1) (objSet o (natKey idx) v)).trans rfl

theorem objGet_fillUnchecked_of_notin :
    ∀ (vs : List JSVal) (idx : Nat) (o : JSObj) (k : String),
    (∀ i, idx ≤ i → i < idx + vs.length → k ≠ natKey i) →
    objGet (fillUnchecked o idx vs) k = objGet o k := by
  intro vs
  induction vs with
  | nil => intro idx o k _; rfl
  | cons v rest ih =>
    intro idx o k h
    show objGet (fillUnchecked (objSet o (natKey idx) v) (idx + 1) rest) k = _
    rw [ih (idx + 1) _ k (fun i h1 h2 =>
      h i (by omega) (by simp only [List.length_cons]; omega))]
    exact objGet_objSet_ne o (natKey idx) k v
      (h idx (Nat.le_refl idx) (by simp only [List.length_cons]; omega))

theorem objGet_fillUnchecked_at :
    ∀ (vs : List JSVal) (idx j : Nat) (o : JSObj) (h : j < vs.length),
    objGet (fillUnchecked o idx vs) (natKey (idx + j)) = some (vs.get ⟨j, h⟩) := by
  intro vs
  induction vs with
  | nil => intro idx j o h; simp at h
  | cons v rest ih =>
    intro idx j o h
    cases j with
    | zero =>
      show objGet (fillUnchecked (objSet o (natKey idx) v) (idx + 1) rest)
        (natKey (idx + 0)) = some v
      rw [objGet_fillUnchecked_of_notin rest (idx + 1) _ (natKey (idx + 0))
        (fun i h1 h2 hc => by have := natKey_injective hc; omega)]
      rw [Nat.add_zero]
      exact objGet_objSet_self o (natKey idx) v
    | succ j2 =>
      show objGet (fillUnchecked (objSet o (natKey idx) v) (idx + 1) rest)
        (natKey (idx + (j2 + 1))) = _
      have harith : idx + (j2 + 1) = (idx + 1) + j2 := by omega
      rw [harith, ih (idx + 1) j2 _ (by simp only [List.length_cons] at h; omega)]
      rfl

theorem hasOwn_fillUnchecked :
    ∀ (vs : List JSVal) (idx : Nat) (o : JSObj) (k : String),
    hasOwn (fillUnchecked o idx vs) k = true ↔
      (hasOwn o k = true ∨ ∃ j, j < vs.length ∧ k = natKey (idx + j)) := by
  intro vs
  induction vs with
  | nil => intro idx o k; simp [fillUnchecked]
  | cons v rest ih =>
    intro idx o k
    show hasOwn (fillUnchecked (objSet o (natKey idx) v) (idx + 1) rest) k = true ↔ _
    rw [ih]
    constructor
    · rintro (ho | ⟨j, hj, hk⟩)
      · rcases (hasOwn_objSet o (natKey idx) k v).mp ho with hk | ho
        · exact Or.inr ⟨0, by simp only [List.length_cons]; omega, by simpa using hk⟩
        · exact Or.inl ho
      · refine Or.inr ⟨j + 1, by simp only [List.length_cons]; omega, ?_⟩
        rw [hk]
        congr 1
        omega
    · rintro (ho | ⟨j, hj, hk⟩)
      · exact Or.inl ((hasOwn_objSet o (natKey idx) k v).mpr (Or.inr ho))
      · cases j with
        | zero =>
          exact Or.inl ((hasOwn_objSet o (natKey idx) k v).mpr
            (Or.inl (by simpa using hk)))
        | succ j2 =>
          refine Or.inr ⟨j2, by simp only [List.length_cons] at hj; omega, ?_⟩
          rw [hk]
          congr 1
          omega

theorem fillChecked_eq_ok : ∀ (vs : List JSVal) (idx : Nat) (o : JSObj),
    (∀ i, idx ≤ i → i < idx + vs.length → keyIn o (natKey i) = false) →
    fillChecked o idx vs = .ok (fillUnchecked o idx vs) := by
  intro vs
  induction vs with
  | nil => intro idx o _; rfl
  | cons v rest ih =>
    intro idx o h
    have hk : ¬(keyIn o (natKey idx) = true) := by
      rw [h idx (Nat.le_refl idx) (by simp only [List.length_cons]; omega)]
      simp
    simp only [fillChecked, fillUnchecked]
    rw [if_neg hk]
    apply ih
    intro i h1 h2
    apply bool_eq_false
    intro hc
    rcases (keyIn_objSet o (natKey idx) (natKey i) v).mp hc with he | he
    · have := natKey_injective he
      omega
    · rw [h i (by omega) (by simp only [List.length_cons] at h2 ⊢; omega)] at he
      exact Bool.noConfusion he

theorem fillChecked_error_iff : ∀ (vs : List JSVal) (idx : Nat) (o : JSObj),
    (∃ e, fillChecked o idx vs = .error e) ↔
      (∃ i, idx ≤ i ∧ i < idx + vs.length ∧ keyIn o (natKey i) = true) := by
  intro vs
  induction vs with
  | nil =>
    intro idx o
    constructor
    · rintro ⟨e, he⟩
      exact Except.noConfusion he
    · rintro ⟨i, h1, h2, _⟩
      simp only [List.length_nil] at h2
      omega
  | cons v rest ih =>
    intro idx o
    by_cases hk : keyIn o (natKey idx) = true
    · constructor
      · intro _
        exact ⟨idx, Nat.le_refl idx, by simp only [List.length_cons]; omega, hk⟩
      · intro _
        refine ⟨.rangeError ("Numeric name " ++ natKey idx ++ " used as a regexp capture name"), ?_⟩
        simp only [fillChecked]
        rw [if_pos hk]
    · have hkf : keyIn o (natKey idx) = false := bool_eq_false hk
      constructor
      · rintro ⟨e, he⟩
        simp only [fillChecked] at he
        rw [if_neg hk] at he
        obtain ⟨i, h1, h2, h3⟩ := (ih (idx + 1) _).mp ⟨e, he⟩
        rcases (keyIn_objSet o (natKey idx) (natKey i) v).mp h3 with hc | hc
        · have := natKey_injective hc
          omega
        · exact ⟨i, by omega, by simp only [List.length_cons] at h2 ⊢; omega, hc⟩
      · rintro ⟨i, h1, h2, h3⟩
        have hi : idx + 1 ≤ i := by
          rcases Nat.eq_or_lt_of_le h1 with rfl | hlt
          · rw [h3] at hkf
            exact Bool.noConfusion hkf
          · omega
        obtain ⟨e, he⟩ := (ih (idx + 1) (objSet o (natKey idx) v)).mpr
          ⟨i, hi, by simp only [List.length_cons] at h2 ⊢; omega,
            (keyIn_objSet o (natKey idx) (natKey i) v).mpr (Or.inr h3)⟩
        refine ⟨e, ?_⟩
        simp only [fillChecked]
        rw [if_neg hk]
        exact he

/-- The argument list the substitution primitive passes to the wrapper for a
match of a pattern with `ps.length` positional captures and named captures
`nm` (spec section 4.1, input contract of the produced function): the full
match, the positional captures, the match offset, the original string, and
the named-capture object appended last. -/
def mkNamedArgs (m0 : String) (ps : List JSVal) (off : Nat) (orig : String)
    (nm : List (String × JSVal)) : List JSVal :=
  (JSVal.str m0 :: ps) ++ [JSVal.num off, JSVal.str orig, JSVal.obj nm]

theorem mkNamedArgs_length (m0 : String) (ps : List JSVal) (off : Nat)
    (orig : String) (nm : List (String × JSVal)) :
    (mkNamedArgs m0 ps off orig nm).length = ps.length + 4 := by
  simp [mkNamedArgs]

theorem mkNamedArgs_last (m0 : String) (ps : List JSVal) (off : Nat)
    (orig : String) (nm : List (String × JSVal)) :
    ((mkNamedArgs m0 ps off orig nm).getLast?).getD JSVal.undef = JSVal.obj nm := by
  rw [mkNamedArgs,
    show [JSVal.num off, JSVal.str orig, JSVal.obj nm]
      = [JSVal.num off, JSVal.str orig] ++ [JSVal.obj nm] from rfl,
    ← List.append_assoc, List.getLast?_concat]
  rfl

theorem mkNamedArgs_take (m0 : String) (ps : List JSVal) (off : Nat)
    (orig : String) (nm : List (String × JSVal)) :
    (mkNamedArgs m0 ps off orig nm).take ((mkNamedArgs m0 ps off orig nm).length - 3)
      = JSVal.str m0 :: ps := by
  rw [mkNamedArgs_length, mkNamedArgs]
  exact List.take_left' (by simp)

theorem mkNamedArgs_getD_off (m0 : String) (ps : List JSVal) (off : Nat)
    (orig : String) (nm : List (String × JSVal)) :
    (mkNamedArgs m0 ps off orig nm).getD
      ((mkNamedArgs m0 ps off orig nm).length - 3) JSVal.undef = JSVal.num off := by
  rw [mkNamedArgs_length, mkNamedArgs, List.getD_eq_getElem?_getD,
    show ps.length + 4 - 3 = (JSVal.str m0 :: ps).length by simp,
    List.getElem?_append_right (Nat.le_refl _)]
  simp

theorem mkNamedArgs_getD_orig (m0 : String) (ps : List JSVal) (off : Nat)
    (orig : String) (nm : List (String × JSVal)) :
    (mkNamedArgs m0 ps off orig nm).getD
      ((mkNamedArgs m0 ps off orig nm).length - 2) JSVal.undef = JSVal.str orig := by
  rw [mkNamedArgs_length, mkNamedArgs, List.getD_eq_getElem?_getD,
    List.getElem?_append_right (by simp)]
  have harith : ps.length + 4 - 2 - (JSVal.str m0 :: ps).length = 1 := by simp
  rw [harith]
  rfl

theorem named_obj_branch (replacer : JSObj → JSVal → JSVal → String)
    (m0 : String) (ps : List JSVal) (off : Nat) (orig : String)
    (nm : List (String × JSVal)) :
    named replacer (mkNamedArgs m0 ps off orig nm)
      = match fillChecked (objAssign ⟨false, []⟩ nm) 0 (JSVal.str m0 :: ps) with
        | .error e => .error e
        | .ok captures =>
          .ok (replacer captures (JSVal.num off) (JSVal.str orig)) := by
  rw [named, mkNamedArgs_last, mkNamedArgs_take, mkNamedArgs_getD_off,
    mkNamedArgs_getD_orig]
  rfl

theorem assembleCall_obj_branch (m0 : String) (ps : List JSVal) (off : Nat)
    (orig : String) (nm : List (String × JSVal)) :
    assembleCall (mkNamedArgs m0 ps off orig nm)
      = match fillChecked (objAssign ⟨false, []⟩ nm) 0 (JSVal.str m0 :: ps) with
        | .error e => .error e
        | .ok captures =>
          .ok (captures, JSVal.num off, JSVal.str orig) := by
  rw [assembleCall, mkNamedArgs_last, mkNamedArgs_take, mkNamedArgs_getD_off,
    mkNamedArgs_getD_orig]
  rfl

theorem fillChecked_ok_eq : ∀ (vs : List JSVal) (idx : Nat) (o o2 : JSObj),
    fillChecked o idx vs = .ok o2 → o2 = fillUnchecked o idx vs := by
  intro vs
  induction vs with
  | nil =>
    intro idx o o2 h
    cases h
    rfl
  | cons v rest ih =>
    intro idx o o2 h
    simp only [fillChecked] at h
    by_cases hk : keyIn o (natKey idx) = true
    · rw [if_pos hk] at h
      exact Except.noConfusion h
    · rw [if_neg hk] at h
      exact ih (idx + 1) _ o2 h

/-- C1: invoking the wrapper produced by `named` on a matching input from a
pattern with `ps.length` positional groups and named captures `nm`, none of
whose names collides with a positional index, calls the replacer with a
Capture Object whose key `0` is the full match, whose keys `1..M` are the
positional captures in left-to-right order, and which carries every named
key with its value taken from the named-captures mapping; the offset and
the original string are passed through unchanged. -/
theorem named_capture_object (replacer : JSObj → JSVal → JSVal → String)
    (m0 : String) (ps : List JSVal) (off : Nat) (orig : String)
    (nm : List (String × JSVal))
    (hnd : (nm.map Prod.fst).Nodup)
    (hnc : ∀ k ∈ nm.map Prod.fst, ∀ i, i ≤ ps.length → k ≠ natKey i) :
    ∃ captures : JSObj,
      named replacer (mkNamedArgs m0 ps off orig nm)
        = .ok (replacer captures (JSVal.num off) (JSVal.str orig)) ∧
      objGet captures (natKey 0) = some (JSVal.str m0) ∧
      (∀ i (h : i < ps.length),
        objGet captures (natKey (i + 1)) = some (ps.get ⟨i, h⟩)) ∧
      (∀ p ∈ nm, objGet captures p.1 = some p.2) := by
  have hbase : objAssign ⟨false, []⟩ nm = (⟨false, nm⟩ : JSObj) :=
    objAssign_empty false nm hnd
  have hnocol : ∀ i, 0 ≤ i → i < 0 + (JSVal.str m0 :: ps).length →
      keyIn (⟨false, nm⟩ : JSObj) (natKey i) = false := by
    intro i _ hi
    apply bool_eq_false
    intro hc
    rcases (keyIn_eq_true _ _).mp hc with ho | ⟨hp, _⟩
    · obtain ⟨p, hpm, hpk⟩ := (hasOwn_eq_true _ _).mp ho
      exact hnc p.1 (List.mem_map.mpr ⟨p, hpm, rfl⟩) i
        (by simp only [List.length_cons, Nat.zero_add] at hi; omega) hpk
    · exact Bool.noConfusion hp
  have hfc : fillChecked (⟨false, nm⟩ : JSObj) 0 (JSVal.str m0 :: ps)
      = .ok (fillUnchecked ⟨false, nm⟩ 0 (JSVal.str m0 :: ps)) :=
    fillChecked_eq_ok _ 0 _ hnocol
  refine ⟨fillUnchecked ⟨false, nm⟩ 0 (JSVal.str m0 :: ps), ?_, ?_, ?_, ?_⟩
  · rw [named_obj_branch, hbase, hfc]
  · have h0 := objGet_fillUnchecked_at (JSVal.str m0 :: ps) 0 0
      (⟨false, nm⟩ : JSObj) (by simp)
    simpa using h0
  · intro i h
    have hi := objGet_fillUnchecked_at (JSVal.str m0 :: ps) 0 (i + 1)
      (⟨false, nm⟩ : JSObj) (by simp only [List.length_cons]; omega)
    rw [show (0 : Nat) + (i + 1) = i + 1 by omega] at hi
    rw [hi]
    rfl
  · intro p hp
    rw [objGet_fillUnchecked_of_notin _ _ _ _ (fun i h1 h2 hc =>
      hnc p.1 (List.mem_map.mpr ⟨p, hp, rfl⟩) i
        (by simp only [List.length_cons, Nat.zero_add] at h2; omega) hc)]
    show (nm.find? (fun q => q.1 == p.1)).map Prod.snd = some p.2
    rw [find?_of_nodup nm p.1 p.2 hnd hp]
    rfl

theorem named_capture_object_witness :
    ∃ captures : JSObj,
      named (fun _ _ _ => "out")
          (mkNamedArgs "ab" [JSVal.str "a", JSVal.undef] 3 "xaby"
            [("year", JSVal.str "a"), ("day", JSVal.undef)])
        = .ok "out" ∧
      objGet captures (natKey 0) = some (JSVal.str "ab") ∧
      (∀ i (h : i < ([JSVal.str "a", JSVal.undef] : List JSVal).length),
        objGet captures (natKey (i + 1))
          = some (([JSVal.str "a", JSVal.undef] : List JSVal).get ⟨i, h⟩)) ∧
      (∀ p ∈ [("year", JSVal.str "a"), ("day", JSVal.undef)],
        objGet captures p.1 = some p.2) :=
  named_capture_object (fun _ _ _ => "out") "ab" [JSVal.str "a", JSVal.undef] 3
    "xaby" [("year", JSVal.str "a"), ("day", JSVal.undef)] (by decide) (by decide)

/-- C2: if any key of the named-captures mapping is exactly the decimal
string form of a positional index (0 through the number of positional
slots), the wrapper throws a `RangeError`; the error happens for every
replacer, that is, before the callback can run. -/
theorem named_numeric_collision (replacer : JSObj → JSVal → JSVal → String)
    (m0 : String) (ps : List JSVal) (off : Nat) (orig : String)
    (nm : List (String × JSVal))
    (hcol : ∃ i, i ≤ ps.length ∧ ∃ p ∈ nm, p.1 = natKey i) :
    ∃ e, named replacer (mkNamedArgs m0 ps off orig nm) = .error e := by
  obtain ⟨i, hi, p, hp, hpk⟩ := hcol
  have hkey : keyIn (objAssign ⟨false, []⟩ nm) (natKey i) = true := by
    rw [keyIn_eq_true]
    exact Or.inl ((hasOwn_objAssign _ _ _).mpr (Or.inr ⟨p, hp, hpk⟩))
  obtain ⟨e, he⟩ :=
    (fillChecked_error_iff (JSVal.str m0 :: ps) 0 (objAssign ⟨false, []⟩ nm)).mpr
      ⟨i, Nat.zero_le i, by simp only [List.length_cons, Nat.zero_add]; omega, hkey⟩
  refine ⟨e, ?_⟩
  rw [named_obj_branch, he]

theorem named_numeric_collision_witness :
    ∃ e, named (fun _ _ _ => "out")
        (mkNamedArgs "ab" [JSVal.str "a"] 0 "ab" [("1", JSVal.str "a")])
      = .error e :=
  named_numeric_collision (fun _ _ _ => "out") "ab" [JSVal.str "a"] 0 "ab"
    [("1", JSVal.str "a")]
    ⟨1, by decide, ("1", JSVal.str "a"), List.mem_singleton.mpr rfl, by decide⟩

/-- C8: the wrapper is exactly the assembly of the Capture Object, match
offset and original string followed by a single invocation of the wrapped
callback on that triple, whose string result is returned unchanged; the
wrapper consults the callback nowhere else and, being a pure function of
its arguments, has no effect beyond building the fresh Capture Object. -/
theorem named_eq_str (replacer : JSObj → JSVal → JSVal → String)
    (args : List JSVal) (s : String)
    (hv : (args.getLast?).getD JSVal.undef = JSVal.str s) :
    named replacer args
      = .ok (replacer (fillUnchecked ⟨false, []⟩ 0 (args.take (args.length - 2)))
          (args.getD (args.length - 2) JSVal.undef) (JSVal.str s)) := by
  rw [named, hv]

theorem assembleCall_eq_str (args : List JSVal) (s : String)
    (hv : (args.getLast?).getD JSVal.undef = JSVal.str s) :
    assembleCall args
      = .ok (fillUnchecked ⟨false, []⟩ 0 (args.take (args.length - 2)),
          args.getD (args.length - 2) JSVal.undef, JSVal.str s) := by
  rw [assembleCall, hv]

theorem named_eq_nonstr (replacer : JSObj → JSVal → JSVal → String)
    (args : List JSVal) (w : JSVal)
    (hw : (args.getLast?).getD JSVal.undef = w)
    (hns : ∀ s, w ≠ JSVal.str s) :
    named replacer args
      = match fillChecked (assignVal ⟨false, []⟩ w) 0
            (args.take (args.length - 3)) with
        | .error e => .error e
        | .ok captures =>
          .ok (replacer captures (args.getD (args.length - 3) JSVal.undef)
            (args.getD (args.length - 2) JSVal.undef)) := by
  rw [named, hw]
  cases w with
  | str s => exact absurd rfl (hns s)
  | num n => rfl
  | undef => rfl
  | obj m => rfl

theorem assembleCall_eq_nonstr (args : List JSVal) (w : JSVal)
    (hw : (args.getLast?).getD JSVal.undef = w)
    (hns : ∀ s, w ≠ JSVal.str s) :
    assembleCall args
      = match fillChecked (assignVal ⟨false, []⟩ w) 0
            (args.take (args.length - 3)) with
        | .error e => .error e
        | .ok captures =>
          .ok (captures, args.getD (args.length - 3) JSVal.undef,
            args.getD (args.length - 2) JSVal.undef) := by
  rw [assembleCall, hw]
  cases w with
  | str s => exact absurd rfl (hns s)
  | num n => rfl
  | undef => rfl
  | obj m => rfl

/-- C8: the wrapper is exactly the assembly of the Capture Object, match
offset and original string followed by a single invocation of the wrapped
callback on that triple, whose string result is returned unchanged; the
wrapper consults the callback nowhere else and, being a pure function of
its arguments, has no effect beyond building the fresh Capture Object. -/
theorem named_calls_replacer_once (replacer : JSObj → JSVal → JSVal → String)
    (args : List JSVal) :
    named replacer args
      = (assembleCall args).map (fun t => replacer t.1 t.2.1 t.2.2) := by
  cases hv : (args.getLast?).getD JSVal.undef with
  | str s =>
    rw [named_eq_str replacer args s hv, assembleCall_eq_str args s hv]
    rfl
  | num n =>
    rw [named_eq_nonstr replacer args (JSVal.num n) hv (fun s h => JSVal.noConfusion h),
        assembleCall_eq_nonstr args (JSVal.num n) hv (fun s h => JSVal.noConfusion h)]
    cases fillChecked (assignVal ⟨false, []⟩ (JSVal.num n)) 0
      (args.take (args.length - 3)) <;> rfl
  | undef =>
    rw [named_eq_nonstr replacer args JSVal.undef hv (fun s h => JSVal.noConfusion h),
        assembleCall_eq_nonstr args JSVal.undef hv (fun s h => JSVal.noConfusion h)]
    cases fillChecked (assignVal ⟨false, []⟩ JSVal.undef) 0
      (args.take (args.length - 3)) <;> rfl
  | obj m =>
    rw [named_eq_nonstr replacer args (JSVal.obj m) hv (fun s h => JSVal.noConfusion h),
        assembleCall_eq_nonstr args (JSVal.obj m) hv (fun s h => JSVal.noConfusion h)]
    cases fillChecked (assignVal ⟨false, []⟩ (JSVal.obj m)) 0
      (args.take (args.length - 3)) <;> rfl

/-- C9: the Capture Object is created with a null prototype: whenever the
assembly succeeds, the object handed to the callback has no prototype and
its own keys are exactly the copied named-capture keys plus the positional
indices, and nothing else; and the collision error fires exactly when the
named-captures mapping itself carries a positional decimal key, so the
`index in captures` test can never be triggered by an inherited property
such as `toString`. -/
theorem named_capture_object_null_proto (replacer : JSObj → JSVal → JSVal → String)
    (m0 : String) (ps : List JSVal) (off : Nat) (orig : String)
    (nm : List (String × JSVal)) :
    (∀ captures offv origv,
      assembleCall (mkNamedArgs m0 ps off orig nm) = .ok (captures, offv, origv) →
      captures.hasObjectProto = false ∧
      ∀ k, hasOwn captures k = true ↔
        ((∃ p ∈ nm, p.1 = k) ∨ ∃ i, i ≤ ps.length ∧ k = natKey i)) ∧
    ((∃ e, named replacer (mkNamedArgs m0 ps off orig nm) = .error e) ↔
      ∃ i, i ≤ ps.length ∧ ∃ p ∈ nm, p.1 = natKey i) := by
  have hproto : (objAssign ⟨false, []⟩ nm).hasObjectProto = false :=
    proto_objAssign _ _
  constructor
  · intro captures offv origv h
    rw [assembleCall_obj_branch] at h
    have hcap : captures
        = fillUnchecked (objAssign ⟨false, []⟩ nm) 0 (JSVal.str m0 :: ps) := by
      cases hf : fillChecked (objAssign ⟨false, []⟩ nm) 0 (JSVal.str m0 :: ps) with
      | error e =>
        rw [hf] at h
        exact Except.noConfusion h
      | ok c =>
        rw [hf] at h
        cases h
        exact fillChecked_ok_eq _ 0 _ _ hf
    subst hcap
    constructor
    · rw [proto_fillUnchecked]
      exact hproto
    · intro k
      rw [hasOwn_fillUnchecked]
      constructor
      · rintro (ho | ⟨j, hj, hk⟩)
        · rcases (hasOwn_objAssign _ _ _).mp ho with hemp | hin
          · exact absurd hemp (by simp [hasOwn])
          · exact Or.inl hin
        · exact Or.inr ⟨j, by simp only [List.length_cons] at hj; omega,
            by rw [hk]; congr 1; omega⟩
      · rintro (hin | ⟨i, hi, hk⟩)
        · exact Or.inl ((hasOwn_objAssign _ _ _).mpr (Or.inr hin))
        · exact Or.inr ⟨i, by simp only [List.length_cons]; omega,
            by rw [hk]; congr 1; omega⟩
  · rw [named_obj_branch]
    have herr : (∃ e, (match fillChecked (objAssign ⟨false, []⟩ nm) 0
          (JSVal.str m0 :: ps) with
        | .error e => Except.error e
        | .ok captures =>
          Except.ok (replacer captures (JSVal.num off) (JSVal.str orig)))
        = Except.error e) ↔
        ∃ e, fillChecked (objAssign ⟨false, []⟩ nm) 0 (JSVal.str m0 :: ps)
          = .error e := by
      cases hf : fillChecked (objAssign ⟨false, []⟩ nm) 0 (JSVal.str m0 :: ps) with
      | error e => exact ⟨fun _ => ⟨e, rfl⟩, fun _ => ⟨e, rfl⟩⟩
      | ok c =>
        constructor
        · rintro ⟨e, he⟩
          exact Except.noConfusion he
        · rintro ⟨e, he⟩
          exact Except.noConfusion he
    rw [herr, fillChecked_error_iff]
    constructor
    · rintro ⟨i, _, hi, hk⟩
      rcases (keyIn_eq_true _ _).mp hk with ho | ⟨hp, _⟩
      · rcases (hasOwn_objAssign _ _ _).mp ho with hemp | hin
        · exact absurd hemp (by simp [hasOwn])
        · exact ⟨i, by simp only [List.length_cons, Nat.zero_add] at hi; omega, hin⟩
      · rw [hproto] at hp
        exact Bool.noConfusion hp
    · rintro ⟨i, hi, hin⟩
      refine ⟨i, Nat.zero_le i,
        by simp only [List.length_cons, Nat.zero_add]; omega, ?_⟩
      rw [keyIn_eq_true]
      exact Or.inl ((hasOwn_objAssign _ _ _).mpr (Or.inr hin))

theorem named_capture_object_null_proto_witness :
    (∀ captures offv origv,
      assembleCall (mkNamedArgs "ab" [JSVal.str "a"] 0 "ab" [("year", JSVal.str "a")])
        = .ok (captures, offv, origv) →
      captures.hasObjectProto = false ∧
      ∀ k, hasOwn captures k = true ↔
        ((∃ p ∈ [("year", JSVal.str "a")], p.1 = k) ∨
          ∃ i, i ≤ ([JSVal.str "a"] : List JSVal).length ∧ k = natKey i)) ∧
    ((∃ e, named (fun _ _ _ => "out")
        (mkNamedArgs "ab" [JSVal.str "a"] 0 "ab" [("year", JSVal.str "a")])
        = .error e) ↔
      ∃ i, i ≤ ([JSVal.str "a"] : List JSVal).length ∧
        ∃ p ∈ [("year", JSVal.str "a")], p.1 = natKey i) :=
  named_capture_object_null_proto (fun _ _ _ => "out") "ab" [JSVal.str "a"] 0 "ab"
    [("year", JSVal.str "a")]

/-- C10: when the trailing argument received by the wrapper is a string —
the pattern defines no named captures — the wrapper takes the branch with
no collision test and never throws. -/
theorem named_string_branch_total (replacer : JSObj → JSVal → JSVal → String)
    (args : List JSVal) (s : String)
    (h : (args.getLast?).getD JSVal.undef = JSVal.str s) :
    ∃ r, named replacer args = .ok r := by
  refine ⟨replacer (fillUnchecked ⟨false, []⟩ 0 (args.take (args.length - 2)))
    (args.getD (args.length - 2) JSVal.undef) (JSVal.str s), ?_⟩
  rw [named, h]

theorem named_string_branch_total_witness :
    ∃ r, named (fun _ _ _ => "out")
        [JSVal.str "ab", JSVal.str "a", JSVal.num 0, JSVal.str "xaby"]
      = .ok r :=
  named_string_branch_total (fun _ _ _ => "out")
    [JSVal.str "ab", JSVal.str "a", JSVal.num 0, JSVal.str "xaby"] "xaby" rfl

/-- C4: for a non-null match result, `groups` either returns exactly the
named-capture mapping the result carries, or, when the result carries none
(the pattern has zero named groups), throws a `RangeError`; the case split
on the carried mapping shows these are the only two outcomes. -/
theorem groups_result_cases (r : MatchResult) :
    (∀ g, r.groups = some g → groups (some r) = .ok (some g)) ∧
    (r.groups = none → ∃ e, groups (some r) = .error e) := by
  constructor
  · intro g hg
    simp only [groups, hg]
  · intro hg
    exact ⟨.rangeError
      "Attempted to read the named captures of a Regexp without named captures",
      by simp only [groups, hg]⟩

theorem groups_result_cases_witness :
    groups (some ⟨[some "2020-01"], 0, "2020-01,2021-02",
        some [("year", JSVal.str "2020")]⟩)
      = .ok (some [("year", JSVal.str "2020")]) :=
  (groups_result_cases ⟨[some "2020-01"], 0, "2020-01,2021-02",
    some [("year", JSVal.str "2020")]⟩).1 [("year", JSVal.str "2020")] rfl

/-- C5: `groups` maps the no-match sentinel to itself and does not throw;
absence of a match is not an error. -/
theorem groups_null_sentinel : groups none = .ok none := rfl

theorem execAll_global_eq_occList (find : Nat → Option (Nat × Nat)) (len : Nat)
    (hb : ∀ p s e, find p = some (s, e) → e ≤ len) :
    ∀ (fuel li : Nat), li ≤ len →
      execAll true find len fuel li = occList find fuel li := by
  intro fuel
  induction fuel with
  | zero => intro li _; rfl
  | succ f ih =>
    intro li hli
    cases hf : find li with
    | none => simp [execAll, occList, exec, hf, show ¬len < li from by omega]
    | some m =>
      simp only [execAll, occList, exec, hf, if_true,
        if_neg (show ¬len < li from by omega)]
      rw [ih m.2 (hb li m.1 m.2 (by rw [hf]))]

theorem occList_mem_le (find : Nat → Option (Nat × Nat))
    (hs : ∀ p s e, find p = some (s, e) → p ≤ s)
    (hse : ∀ p s e, find p = some (s, e) → s ≤ e) :
    ∀ (fuel pos : Nat) (l : List (Nat × Nat)), occList find fuel pos = some l →
      (∀ x ∈ l, pos ≤ x.1) ∧ l.Pairwise (fun a b => a.1 ≤ b.1) := by
  intro fuel
  induction fuel with
  | zero => intro pos l h; exact Option.noConfusion h
  | succ f ih =>
    intro pos l h
    cases hf : find pos with
    | none =>
      simp only [occList, hf] at h
      injection h with h2
      rw [← h2]
      exact ⟨by simp, by simp⟩
    | some m =>
      simp only [occList, hf] at h
      cases ho : occList find f m.2 with
      | none => rw [ho] at h; simp at h
      | some t =>
        rw [ho] at h
        simp only [Option.map_some'] at h
        injection h with h2
        obtain ⟨h1, hp⟩ := ih m.2 t ho
        rw [← h2]
        constructor
        · intro x hx
          rcases List.mem_cons.mp hx with rfl | hx
          · exact hs pos x.1 x.2 (by rw [hf])
          · exact le_trans (hs pos m.1 m.2 (by rw [hf]))
              (le_trans (hse pos m.1 m.2 (by rw [hf])) (h1 x hx))
        · exact List.Pairwise.cons
            (fun x hx => le_trans (hse pos m.1 m.2 (by rw [hf])) (h1 x hx)) hp

/-- C3: over a global pattern whose left-to-right occurrence scan of the
target terminates with `k` occurrences, `execAll` terminates and yields
exactly those `k` matches, in left-to-right order of their positions. The
matching primitive is assumed sound and bounded: a reported match begins at
or after the searched position, ends at or after its start, and ends within
the target. -/
theorem execAll_global_yields_all (find : Nat → Option (Nat × Nat)) (len k : Nat)
    (l : List (Nat × Nat))
    (hs : ∀ p s e, find p = some (s, e) → p ≤ s)
    (hse : ∀ p s e, find p = some (s, e) → s ≤ e)
    (hb : ∀ p s e, find p = some (s, e) → e ≤ len)
    (hocc : occList find (len + 1) 0 = some l)
    (hk : l.length = k) :
    execAll true find len (len + 1) 0 = some l ∧ l.length = k ∧
      l.Pairwise (fun a b => a.1 ≤ b.1) := by
  refine ⟨?_, hk, (occList_mem_le find hs hse (len + 1) 0 l hocc).2⟩
  rw [execAll_global_eq_occList find len hb (len + 1) 0 (Nat.zero_le len), hocc]

/-- C6: over a non-global pattern, when the target contains at least one
occurrence, `execAll` yields exactly the first match and terminates,
regardless of further matches existing. -/
theorem execAll_nonglobal_single (find : Nat → Option (Nat × Nat)) (len : Nat)
    (l : List (Nat × Nat))
    (hocc : occList find (len + 1) 0 = some l) (hne : l ≠ []) :
    ∃ m, l.head? = some m ∧ execAll false find len (len + 1) 0 = some [m] := by
  cases hf : find 0 with
  | none =>
    exfalso
    apply hne
    simp only [occList, hf] at hocc
    injection hocc with h2
    exact h2.symm
  | some m =>
    refine ⟨m, ?_, ?_⟩
    · simp only [occList, hf] at hocc
      cases ho : occList find len m.2 with
      | none => rw [ho] at hocc; exact Option.noConfusion hocc
      | some t =>
        rw [ho] at hocc
        injection hocc with h2
        rw [← h2]
        rfl
    · simp [execAll, exec, hf]

/-- C7: over any pattern, global or not, whose occurrence scan of the
target is empty, `execAll` started on a fresh pattern state yields nothing
and terminates. -/
theorem execAll_no_match_empty (g : Bool) (find : Nat → Option (Nat × Nat))
    (len : Nat) (hocc : occList find (len + 1) 0 = some []) :
    execAll g find len (len + 1) 0 = some [] := by
  have hf : find 0 = none := by
    cases hf : find 0 with
    | none => rfl
    | some m =>
      simp only [occList, hf] at hocc
      cases ho : occList find len m.2 with
      | none => rw [ho] at hocc; exact Option.noConfusion hocc
      | some t =>
        rw [ho] at hocc
        injection hocc with h2
        exact absurd h2 (by simp)
  cases g with
  | true => simp [execAll, exec, hf]
  | false => simp [execAll, exec, hf]

/-- A concrete matching primitive for witnesses: the pattern `ab` against
the target `abab` (length 4), which occurs at offsets 0 and 2. -/
def findDemo : Nat → Option (Nat × Nat) := fun p =>
  if p ≤ 0 then some (0, 2) else if p ≤ 2 then some (2, 4) else none

/-- A matching primitive with no occurrence anywhere. -/
def findNone : Nat → Option (Nat × Nat) := fun _ => none

theorem execAll_global_yields_all_witness :
    execAll true findDemo 4 5 0 = some [(0, 2), (2, 4)] ∧
      ([(0, 2), (2, 4)] : List (Nat × Nat)).length = 2 ∧
      ([(0, 2), (2, 4)] : List (Nat × Nat)).Pairwise (fun a b => a.1 ≤ b.1) :=
  execAll_global_yields_all findDemo 4 2 [(0, 2), (2, 4)]
    (fun p s e h => by
      unfold findDemo at h
      split_ifs at h with h1 h2 <;> simp_all)
    (fun p s e h => by
      unfold findDemo at h
      split_ifs at h with h1 h2 <;> (first | omega | (simp_all; try omega)))
    (fun p s e h => by
      unfold findDemo at h
      split_ifs at h with h1 h2 <;> (first | omega | (simp_all; try omega)))
    (by decide) (by decide)

theorem execAll_nonglobal_single_witness :
    ∃ m, ([(0, 2), (2, 4)] : List (Nat × Nat)).head? = some m ∧
      execAll false findDemo 4 5 0 = some [m] :=
  execAll_nonglobal_single findDemo 4 [(0, 2), (2, 4)] (by decide) (by decide)

theorem execAll_no_match_empty_witness :
    execAll true findNone 3 4 0 = some [] :=
  execAll_no_match_empty true findNone 3 (by decide)

end RegexpUtil
